import Mathlib

/-!
# Verification of the game-tree core (`src/Game.py`)

Shallow embedding of the payoff-propagation and policy-optimization core:
`DiscreteDistribution`, the `Node` hierarchy (`Leaf`, `ChanceNode`), and
`ActionSchema`, together with proofs about their behaviour.

Modelling conventions:
* Python/TensorFlow floats are modelled as exact rationals (`ℚ`).
* A payoff is a `PyVal`: either a scalar (rank-0) value or a rank-1 tensor,
  with TensorFlow-style broadcasting arithmetic.
* Mutable state (the memoized payoff, visit counters) is modelled by
  state-passing: a function returns its result together with the updated node.
* `none` models both Python `None` and a raised exception; the random draw
  taken from a distribution inside `sample` is supplied as an argument.
-/

set_option maxHeartbeats 1000000

/-- A value produced by the payoff computations: a scalar (Python float /
rank-0 tensor) or a rank-1 tensor, with broadcasting arithmetic. -/
inductive PyVal where
  | scalar (x : ℚ)
  | vec (xs : List ℚ)
deriving DecidableEq

/-- Broadcasting addition (`+` on floats/tensors). -/
def PyVal.add : PyVal → PyVal → PyVal
  | scalar a, scalar b => scalar (a + b)
  | scalar a, vec bs => vec (bs.map (fun b => a + b))
  | vec xs, scalar b => vec (xs.map (fun a => a + b))
  | vec xs, vec bs => vec (List.zipWith (fun a b => a + b) xs bs)

/-- Multiplication by a scalar (`c * t`). -/
def PyVal.smul (c : ℚ) : PyVal → PyVal
  | scalar x => scalar (c * x)
  | vec xs => vec (xs.map (fun x => c * x))

/-- Division by a scalar (`t / c`). -/
def PyVal.divQ : PyVal → ℚ → PyVal
  | scalar x, c => scalar (x / c)
  | vec xs, c => vec (xs.map (fun x => x / c))

/-- Subscripting `t[i]`: a scalar is not subscriptable (Python `TypeError`,
modelled as `none`); out-of-range subscripts are also `none`. -/
def PyVal.index : PyVal → ℕ → Option ℚ
  | scalar _, _ => none
  | vec xs, i => xs.get? i

/-- The `Distribution` hierarchy of `src/Game.py`: `DiscreteDistribution`
holds a probability vector, `ContinuesDistribution` a clipped normal. -/
inductive Distribution where
  | discrete (probs : List ℚ)
  | continuous (lo hi loc scale : ℚ)
deriving DecidableEq

/-- `DiscreteDistribution.get_probability` indexes the probability vector by
the value.  `ContinuesDistribution` inherits the abstract method (which
returns Python `None`), so any use of its result fails: modelled as `none`. -/
def Distribution.get_probability : Distribution → ℚ → Option ℚ
  | .discrete probs, v =>
      if 0 ≤ v.num ∧ v.den = 1 then probs.get? v.num.toNat else none
  | .continuous _ _ _ _, _ => none

mutual
/-- The `Node` hierarchy: `Leaf` and `ChanceNode` (fields in the order of
`ChanceNode.__init__`: on-policy distribution, optional off-policy
distribution, `payoff_estimate`, `computed_payoff_estimate`, the
`intermediate_action_schema_node` flag, and the `children` mapping). -/
inductive Node where
  | leaf : Node
  | chance (on_policy : Distribution) (off_policy : Option Distribution)
      (payoff_estimate : Option PyVal) (computed_payoff_estimate : Option PyVal)
      (intermediate : Bool) (children : List CEntry) : Node

/-- One entry of `ChanceNode.children`: a sampled value mapped to the
five-element list `[probability, importance, visits, direkt_reward, node]`
stored by `ChanceNode.add`. -/
inductive CEntry where
  | mk (value : ℚ) (probability : ℚ) (importance : ℚ) (visits : ℕ)
      (direkt_reward : PyVal) (child : Node) : CEntry
end

def CEntry.value : CEntry → ℚ
  | .mk v _ _ _ _ _ => v

def CEntry.probability : CEntry → ℚ
  | .mk _ p _ _ _ _ => p

def CEntry.importance : CEntry → ℚ
  | .mk _ _ imp _ _ _ => imp

def CEntry.visits : CEntry → ℕ
  | .mk _ _ _ vis _ _ => vis

def CEntry.direkt_reward : CEntry → PyVal
  | .mk _ _ _ _ dr _ => dr

def CEntry.child : CEntry → Node
  | .mk _ _ _ _ _ c => c

mutual
/-- `Leaf.compute_payoff` / `ChanceNode.compute_payoff` from `src/Game.py`,
as a pure state-passing function: the first component is the returned payoff
(`none` models Python `None` as well as a raised exception, in which case the
memo field is left unset), the second the node after its memo updates. -/
def Node.compute_payoff : Node → ℚ → Option PyVal × Node
  | .leaf, _ => (some (.scalar 0), .leaf)
  | .chance onp offp pe comp inter cs, discount =>
    match comp with
    | some p => (some p, .chance onp offp pe comp inter cs)
    | none =>
      match cs with
      | [] => (pe, .chance onp offp pe pe inter cs)
      | c :: rest =>
        let d := if inter then 1 else discount
        match go_children d (.scalar 0) 0 (c :: rest) with
        | (none, cs') => (none, .chance onp offp pe none inter cs')
        | (some (v, sumv), cs') =>
          let payoff := if sumv = 0 then PyVal.vec [0] else v.divQ (sumv : ℚ)
          (some payoff, .chance onp offp pe (some payoff) inter cs')

/-- The loop over `self.children.values()` in `ChanceNode.compute_payoff`:
accumulates `visits * importance * (direkt_reward + discount * upstream)` and
the total visit count, threading the child-node memo updates.  A `none`
upstream payoff aborts the loop (the Python `TypeError` raised by
`direkt_reward + discount * None`). -/
def go_children : ℚ → PyVal → ℕ → List CEntry → Option (PyVal × ℕ) × List CEntry
  | _, acc, sumv, [] => (some (acc, sumv), [])
  | d, acc, sumv, .mk v p imp vis dr child :: rest =>
    match child.compute_payoff d with
    | (none, child') => (none, .mk v p imp vis dr child' :: rest)
    | (some up, child') =>
      let acc' := acc.add (PyVal.smul ((vis : ℚ) * imp) (dr.add (PyVal.smul d up)))
      match go_children d acc' (sumv + vis) rest with
      | (res, rest') => (res, .mk v p imp vis dr child' :: rest')
end

/-- Dictionary lookup `value in self.children` / `self.children[value]`:
the first entry with the given key (keys are unique in a Python dict). -/
def find_child : List CEntry → ℚ → Option CEntry
  | [], _ => none
  | c :: rest, v => if c.value = v then some c else find_child rest v

/-- `self.children[value][2] += 1`: increment the visit counter of the entry
with the given key. -/
def bump_visit : List CEntry → ℚ → List CEntry
  | [], _ => []
  | .mk v p imp vis dr child :: rest, w =>
    if v = w then .mk v p imp (vis + 1) dr child :: rest
    else .mk v p imp vis dr child :: bump_visit rest w

/-- The tuple returned by `ChanceNode.sample`, together with the updated
node. -/
structure SampleResult where
  probability : ℚ
  importance : ℚ
  value : ℚ
  next_node : Option Node
  node : Node

/-- `ChanceNode.sample` from `src/Game.py`.  The random `(probability, value)`
pair drawn from the off-policy distribution (when present) or from the
on-policy distribution (otherwise) is supplied as the `draw` argument.
Clears the memoized payoff, computes the importance weight
(`on_policy_probability / probability` under off-policy sampling, `1.0`
otherwise), bumps the visit counter of an already-known value and returns the
cached child for it.  `none` models a raised exception (e.g. the division by
a `None` probability). -/
def ChanceNode.sample : Node → ℚ × ℚ → Option SampleResult
  | .leaf, _ => none
  | .chance onp offp pe _ inter cs, (p, v) =>
    let importance? : Option ℚ :=
      match offp with
      | some _ => (onp.get_probability v).map (fun q => q / p)
      | none => some 1
    importance?.map (fun imp =>
      match find_child cs v with
      | some ce => ⟨p, imp, v, some ce.child, .chance onp offp pe none inter (bump_visit cs v)⟩
      | none => ⟨p, imp, v, none, .chance onp offp pe none inter cs⟩)

/-- The observable outcome of `ChanceNode.optimize`: the assertion on the
memoized payoff failing, a raised `TypeError` (subscripting `None` or a
scalar), the `positive_advantages.shape[0] > 0` guard skipping the update, or
the `(values, target_policy)` arguments passed to the on-policy
distribution's `optimize`. -/
inductive OptResult where
  | assertFail
  | typeError
  | noCall
  | call (values : List ℚ) (target_policy : List ℚ)
deriving DecidableEq

/-- The advantage loop of `ChanceNode.optimize`: for each child, recompute
`action_value = direkt_reward + discount * upstream_payoff`, take the current
player's component and subtract the baseline.  `none` models the Python
errors raised when an upstream payoff is `None` or when the action value is
not subscriptable at the player's index. -/
def advantage_loop (d : ℚ) (base : ℚ) (player : ℕ) : List CEntry → Option (List ℚ)
  | [] => some []
  | ce :: rest =>
    match (ce.child.compute_payoff d).1 with
    | none => none
    | some up =>
      match (ce.direkt_reward.add (PyVal.smul d up)).index player with
      | none => none
      | some av =>
        (advantage_loop d base player rest).map (fun l => (av - base) :: l)

/-- `ChanceNode.optimize` from `src/Game.py`: asserts that the payoff was
computed in this pass, forces `discount = 1.0` on intermediate nodes, takes
the current player's component of the stored `payoff_estimate` as baseline,
computes the per-child advantages, clips them at `0`, and hands the visited
values with the normalized (or uniform, when the clipped advantages sum to
`0`) target policy to the on-policy distribution's `optimize`. -/
def ChanceNode.optimize : Node → ℕ → ℚ → OptResult
  | .leaf, _, _ => .typeError
  | .chance _ _ pe comp inter cs, player, discount =>
    match comp with
    | none => .assertFail
    | some _ =>
      let d := if inter then 1 else discount
      match pe with
      | none => .typeError
      | some nv =>
        match nv.index player with
        | none => .typeError
        | some base =>
          match advantage_loop d base player cs with
          | none => .typeError
          | some advs =>
            match advs with
            | [] => .noCall
            | _ :: _ =>
              let pos := advs.map (fun a => max a 0)
              let s := pos.sum
              let target :=
                if s = 0 then List.replicate advs.length ((1 : ℚ) / advs.length)
                else pos.map (fun a => a / s)
              .call (cs.map CEntry.value) target

/-- `DiscreteDistribution`: its state is the probability vector `probs`. -/
structure DiscreteDistribution where
  probs : List ℚ
deriving DecidableEq

/-- `DiscreteDistribution.__init__(size)`: the uniform vector
`tf.constant(1 / size, shape=(size,))`. -/
def DiscreteDistribution.init (size : ℕ) : DiscreteDistribution :=
  ⟨List.replicate size ((1 : ℚ) / size)⟩

/-- `DiscreteDistribution.get_parameters`. -/
def DiscreteDistribution.get_parameters (d : DiscreteDistribution) : List ℚ :=
  d.probs

/-- Python list assignment `probs[v] = p`: negative indices address the list
from the back, indices outside `[-len, len)` raise `IndexError` (`none`). -/
def py_set (xs : List ℚ) (v : ℤ) (p : ℚ) : Option (List ℚ) :=
  if 0 ≤ v ∧ v < (xs.length : ℤ) then some (xs.set v.toNat p)
  else if -(xs.length : ℤ) ≤ v ∧ v < 0 then some (xs.set ((xs.length : ℤ) + v).toNat p)
  else none

/-- `DiscreteDistribution.optimize(values, probabilities)`: start from the
all-zero vector of the current length, assign `probs[v] = p` for the zipped
pairs, and replace the stored parameters with the result. -/
def DiscreteDistribution.optimize (dd : DiscreteDistribution) (values : List ℤ)
    (probabilities : List ℚ) : Option DiscreteDistribution :=
  ((values.zip probabilities).foldlM (fun xs vp => py_set xs vp.1 vp.2)
      (List.replicate dd.probs.length (0 : ℚ))).map (fun xs => ⟨xs⟩)

/-- A sequence of `optimize` calls applied in order. -/
def DiscreteDistribution.apply_optimize_calls (dd : DiscreteDistribution)
    (calls : List (List ℤ × List ℚ)) : Option DiscreteDistribution :=
  calls.foldlM (fun d c => d.optimize c.1 c.2) dd

/-- The target of a child pointer of an `ActionSchema` member node: either
another member of the same schema (Python object identity, modelled by the
index into `chance_nodes`) or a node outside the schema. -/
inductive Ref where
  | member (i : ℕ)
  | ext (n : Node)

/-- A children entry of an `ActionSchema` member `ChanceNode` (same
five-element list as `CEntry`, with the child as a `Ref`). -/
structure SChild where
  value : ℚ
  probability : ℚ
  importance : ℚ
  visits : ℕ
  direkt_reward : PyVal
  child : Ref

/-- An `ActionSchema` member `ChanceNode`, held in the schema's arena so that
memo updates are shared between the schema and the parent members. -/
structure SNode where
  on_policy : Distribution
  off_policy : Option Distribution
  payoff_estimate : Option PyVal
  computed_payoff_estimate : Option PyVal
  intermediate : Bool
  children : List SChild

/-- `ActionSchema`: the member `ChanceNode` arena, the root index and the
`leafs` list built by `find_leaf_nodes`. -/
structure ActionSchema where
  root_node_index : ℕ
  chance_nodes : List SNode
  leafs : List ℕ

/-- Write back the updated children of member `i` (in Python the children
dict of node `i` is mutated in place during the loop). -/
def arena_set_children (ns : List SNode) (i : ℕ) (cs : List SChild) : List SNode :=
  match ns.get? i with
  | some n => ns.set i { n with children := cs }
  | none => ns

/-- Write back the updated children of member `i` and memoize its payoff. -/
def arena_finish (ns : List SNode) (i : ℕ) (cs : List SChild) (payoff : PyVal) :
    List SNode :=
  match ns.get? i with
  | some n => ns.set i { n with children := cs, computed_payoff_estimate := some payoff }
  | none => ns

mutual
/-- `ChanceNode.compute_payoff` evaluated on member `i` of the schema arena:
the same computation as `Node.compute_payoff`, with child pointers into the
arena resolved by index so that memo updates are shared.  The `fuel`
parameter bounds the recursion depth through member pointers (the Python
recursion is unbounded; `none` with an unchanged arena models
non-termination/exhaustion, which no acyclic schema reaches). -/
def compute_payoff_arena : ℕ → List SNode → ℕ → ℚ → Option PyVal × List SNode
  | 0, ns, _, _ => (none, ns)
  | fuel + 1, ns, i, discount =>
    match ns.get? i with
    | none => (none, ns)
    | some n =>
      match n.computed_payoff_estimate with
      | some p => (some p, ns)
      | none =>
        match n.children with
        | [] => (n.payoff_estimate,
                 ns.set i { n with computed_payoff_estimate := n.payoff_estimate })
        | c :: rest =>
          let d := if n.intermediate then 1 else discount
          match go_arena fuel d (.scalar 0) 0 (c :: rest) ns with
          | (none, cs', ns') => (none, arena_set_children ns' i cs')
          | (some (v, sumv), cs', ns') =>
            let payoff := if sumv = 0 then PyVal.vec [0] else v.divQ (sumv : ℚ)
            (some payoff, arena_finish ns' i cs' payoff)
termination_by fuel _ _ _ => (fuel, 0)

/-- The children loop of `ChanceNode.compute_payoff` over arena children:
as `go_children`, threading both the child entries and the arena. -/
def go_arena : ℕ → ℚ → PyVal → ℕ → List SChild → List SNode →
    Option (PyVal × ℕ) × List SChild × List SNode
  | _, _, acc, sumv, [], ns => (some (acc, sumv), [], ns)
  | fuel, d, acc, sumv, c :: rest, ns =>
    let step : Option PyVal × SChild × List SNode :=
      match c.child with
      | .member j =>
        match compute_payoff_arena fuel ns j d with
        | (up, ns') => (up, c, ns')
      | .ext m =>
        match m.compute_payoff d with
        | (up, m') => (up, { c with child := .ext m' }, ns)
    match step with
    | (none, c', ns') => (none, c' :: rest, ns')
    | (some up, c', ns') =>
      let acc' := acc.add (PyVal.smul ((c.visits : ℚ) * c.importance)
        (c.direkt_reward.add (PyVal.smul d up)))
      match go_arena fuel d acc' (sumv + c.visits) rest ns' with
      | (res, rest', ns2) => (res, c' :: rest', ns2)
termination_by fuel _ _ _ cs _ => (fuel, cs.length + 1)
end

/-- `ActionSchema.compute_payoff(discount)`: first compute every leaf node's
payoff with the caller's discount, then every member node's payoff with
discount `1.0`, and return the root node's payoff. -/
def ActionSchema.compute_payoff (fuel : ℕ) (s : ActionSchema) (discount : ℚ) :
    Option PyVal × ActionSchema :=
  let ns1 := s.leafs.foldl (fun ns i => (compute_payoff_arena fuel ns i discount).2)
    s.chance_nodes
  let ns2 := (List.range ns1.length).foldl
    (fun ns i => (compute_payoff_arena fuel ns i 1).2) ns1
  match compute_payoff_arena fuel ns2 s.root_node_index 1 with
  | (p, ns3) => (p, { s with chance_nodes := ns3 })

/-- The node loop of `ActionSchema.find_leaf_nodes`.  Each children entry is
the five-element list `[probability, importance, visits, direkt_reward,
node]` stored by `ChanceNode.add`, but the source unpacks it into the three
targets `_, _, nn`, so the first iteration over a non-empty children mapping
raises `ValueError: too many values to unpack` (modelled as `none`); a node
with no children is appended to the leaf list. -/
def find_leaf_nodes_go : ℕ → List SNode → Option (List ℕ)
  | _, [] => some []
  | i, n :: rest =>
    match n.children with
    | [] => (find_leaf_nodes_go (i + 1) rest).map (fun l => i :: l)
    | _ :: _ => none

/-- `ActionSchema.find_leaf_nodes` from `src/Game.py`. -/
def ActionSchema.find_leaf_nodes (ns : List SNode) : Option (List ℕ) :=
  find_leaf_nodes_go 0 ns

/-- `ActionSchema.__init__(chance_nodes, root_node_index)`: stores the
fields and runs `find_leaf_nodes`; `none` when the latter raises. -/
def ActionSchema.init (cns : List SNode) (root : ℕ) : Option ActionSchema :=
  (ActionSchema.find_leaf_nodes cns).map (fun ls => ⟨root, cns, ls⟩)

/-- Spec-side formula: the payoffs recursively obtained for every visited
value (defined only when every child produces one). -/
def child_payoffs (d : ℚ) : List CEntry → Option (List PyVal)
  | [] => some []
  | ce :: rest =>
    match (ce.child.compute_payoff d).1 with
    | none => none
    | some p => (child_payoffs d rest).map (fun l => p :: l)

/-- Spec-side formula: one summand, `visits * importance * (immediate_reward
+ discount * child_payoff)`. -/
def child_term (d : ℚ) (ce : CEntry) (p : PyVal) : PyVal :=
  PyVal.smul ((ce.visits : ℚ) * ce.importance) (ce.direkt_reward.add (PyVal.smul d p))

/-- Spec-side formula: the sum over visited values of
`visits * importance * action_value`. -/
def spec_weighted_sum (d : ℚ) (cs : List CEntry) (ps : List PyVal) : PyVal :=
  (List.zipWith (child_term d) cs ps).foldl PyVal.add (.scalar 0)

/-- Total visits across all values of a children mapping. -/
def total_visits (cs : List CEntry) : ℕ :=
  (cs.map CEntry.visits).sum

lemma go_children_eq (d : ℚ) : ∀ (cs : List CEntry) (ps : List PyVal),
    child_payoffs d cs = some ps → ∀ (acc : PyVal) (sumv : ℕ),
    (go_children d acc sumv cs).1 =
      some ((List.zipWith (child_term d) cs ps).foldl PyVal.add acc,
        sumv + total_visits cs) := by
  intro cs
  induction cs with
  | nil =>
    intro ps hps acc sumv
    simp only [child_payoffs, Option.some.injEq] at hps
    subst hps
    simp [go_children, total_visits]
  | cons c rest ih =>
    intro ps hps acc sumv
    obtain ⟨v, pq, imp, vis, dr, child⟩ := c
    simp only [child_payoffs, CEntry.child] at hps
    rcases h1 : child.compute_payoff d with ⟨up, child'⟩
    rw [h1] at hps
    cases up with
    | none => simp at hps
    | some p =>
      cases h2 : child_payoffs d rest with
      | none => rw [h2] at hps; simp at hps
      | some ps' =>
        rw [h2] at hps
        simp only [Option.map_some', Option.some.injEq] at hps
        subst hps
        simp only [go_children, h1]
        rcases h3 : go_children d
            (acc.add (PyVal.smul ((vis : ℚ) * imp) (dr.add (PyVal.smul d p))))
            (sumv + vis) rest with ⟨res, rest'⟩
        have := ih ps' h2
          (acc.add (PyVal.smul ((vis : ℚ) * imp) (dr.add (PyVal.smul d p))))
          (sumv + vis)
        rw [h3] at this
        simp only [List.zipWith_cons_cons, List.foldl_cons, child_term,
          CEntry.visits, CEntry.importance, CEntry.direkt_reward, total_visits,
          List.map_cons, List.sum_cons] at this ⊢
        rw [this]
        congr 2
        omega

/-- **C1.** For every `ChanceNode` with at least one entry in its children
mapping (whose memoized payoff is cleared, i.e. the non-cached branch, and
whose children's payoffs are defined), `compute_payoff(discount)` returns the
sum over visited values of `visits * importance * (immediate_reward +
discount * child_payoff)`, divided by the total visits across all values,
with the discount forced to `1.0` first when the node is marked intermediate,
and a zero vector when the total visit count is `0`. -/
theorem chance_node_payoff_formula
    (onp : Distribution) (offp : Option Distribution) (pe : Option PyVal)
    (inter : Bool) (cs : List CEntry) (discount : ℚ) (ps : List PyVal)
    (hne : cs ≠ [])
    (hps : child_payoffs (if inter then 1 else discount) cs = some ps) :
    (Node.compute_payoff (.chance onp offp pe none inter cs) discount).1 =
      some (if total_visits cs = 0 then PyVal.vec [0]
            else (spec_weighted_sum (if inter then 1 else discount) cs ps).divQ
              (total_visits cs)) := by
  cases cs with
  | nil => exact absurd rfl hne
  | cons c rest =>
    simp only [Node.compute_payoff]
    rcases h3 : go_children (if inter then 1 else discount) (.scalar 0) 0 (c :: rest)
      with ⟨res, cs'⟩
    have h4 := go_children_eq (if inter then 1 else discount) (c :: rest) ps hps
      (.scalar 0) 0
    rw [h3] at h4
    simp only at h4
    subst h4
    simp [spec_weighted_sum]

lemma compute_payoff_idem_aux :
    (∀ (n : Node) (d : ℚ),
      (n.compute_payoff d).2.compute_payoff d = n.compute_payoff d) ∧
    (∀ (d : ℚ) (acc : PyVal) (sumv : ℕ) (cs : List CEntry),
      go_children d acc sumv (go_children d acc sumv cs).2 = go_children d acc sumv cs ∧
      (go_children d acc sumv cs).2.length = cs.length) := by
  refine Node.compute_payoff.mutual_induct
    (fun n discount =>
      (n.compute_payoff discount).2.compute_payoff discount = n.compute_payoff discount)
    (fun d acc sumv cs =>
      go_children d acc sumv (go_children d acc sumv cs).2 = go_children d acc sumv cs ∧
      (go_children d acc sumv cs).2.length = cs.length)
    ?_ ?_ ?_ ?_ ?_ ?_ ?_ ?_
  · intro x
    simp [Node.compute_payoff]
  · intro onp offp pe inter cs discount p
    simp [Node.compute_payoff]
  · intro onp offp pe inter discount
    cases pe <;> simp [Node.compute_payoff]
  · intro onp offp pe inter discount c rest d cs' hgo ih
    obtain ⟨ih1, ihlen⟩ := ih
    rw [hgo] at ih1 ihlen
    simp only at ih1 ihlen
    cases cs' with
    | nil => simp at ihlen
    | cons c2 rest2 =>
      simp only [Node.compute_payoff, hgo, ih1]
  · intro onp offp pe inter discount c rest d v sumv cs' hgo ih
    simp only [Node.compute_payoff, hgo]
  · intro x acc sumv
    simp [go_children]
  · intro d acc sumv v p imp vis dr child rest child' h ih1
    rw [h] at ih1
    simp only at ih1
    constructor
    · simp only [go_children, h, ih1]
    · simp only [go_children, h, List.length_cons]
  · intro d acc sumv v p imp vis dr child rest up child' h acc' res rest' hgo ih1 ih2
    rw [h] at ih1
    simp only at ih1
    obtain ⟨ih2a, ih2len⟩ := ih2
    rw [hgo] at ih2a ih2len
    simp only at ih2a ih2len
    constructor
    · simp only [go_children, h, hgo, ih1, ih2a]
    · simp only [go_children, h, hgo, List.length_cons, ih2len]

/-- **C10.** Calling `compute_payoff(d)` twice in the same episode (without
an intervening `sample` clearing the memo) returns identical values and
leaves the node unchanged: the second call finds the memoized result of the
first (when the first call produced and stored a payoff) or repeats the same
computation with the same outcome. -/
theorem compute_payoff_idempotent (n : Node) (d : ℚ) :
    (n.compute_payoff d).2.compute_payoff d = n.compute_payoff d :=
  compute_payoff_idem_aux.1 n d

/-- **C1 witness**: a node with one visited value (visits `2`, importance
`1`, immediate reward `[4]`, `Leaf` child) at discount `1`. -/
theorem chance_node_payoff_formula_witness :
    ([CEntry.mk 0 1 1 2 (PyVal.vec [4]) Node.leaf] ≠ ([] : List CEntry)) ∧
    child_payoffs (if false then 1 else 1) [CEntry.mk 0 1 1 2 (PyVal.vec [4]) Node.leaf] =
      some [PyVal.scalar 0] ∧
    (Node.compute_payoff (.chance (.discrete [1]) none none none false
        [CEntry.mk 0 1 1 2 (PyVal.vec [4]) Node.leaf]) 1).1 =
      some (if total_visits [CEntry.mk 0 1 1 2 (PyVal.vec [4]) Node.leaf] = 0
            then PyVal.vec [0]
            else (spec_weighted_sum (if false then 1 else 1)
                [CEntry.mk 0 1 1 2 (PyVal.vec [4]) Node.leaf]
                [PyVal.scalar 0]).divQ
              (total_visits [CEntry.mk 0 1 1 2 (PyVal.vec [4]) Node.leaf])) :=
  ⟨by simp, by rfl,
    chance_node_payoff_formula (.discrete [1]) none none false
      [CEntry.mk 0 1 1 2 (PyVal.vec [4]) Node.leaf] 1 [PyVal.scalar 0]
      (by simp) (by rfl)⟩

/-- **C7.** A `ChanceNode` with zero total visits yields the zero payoff
`tf.zeros(shape=(1,))` rather than failing, and a `ChanceNode` whose
children mapping is empty returns the stored prior `payoff_estimate`
(whatever it is, including `None`). -/
theorem chance_node_zero_visits
    (onp : Distribution) (offp : Option Distribution) (pe : Option PyVal)
    (inter : Bool) (cs : List CEntry) (discount : ℚ) (ps : List PyVal)
    (hne : cs ≠ [])
    (hps : child_payoffs (if inter then 1 else discount) cs = some ps)
    (hzero : total_visits cs = 0) :
    (Node.compute_payoff (.chance onp offp pe none inter cs) discount).1 =
      some (PyVal.vec [0]) ∧
    (Node.compute_payoff (.chance onp offp pe none inter []) discount).1 = pe := by
  constructor
  · cases cs with
    | nil => exact absurd rfl hne
    | cons c rest =>
      simp only [Node.compute_payoff]
      rcases h3 : go_children (if inter then 1 else discount) (.scalar 0) 0 (c :: rest)
        with ⟨res, cs'⟩
      have h4 := go_children_eq (if inter then 1 else discount) (c :: rest) ps hps
        (.scalar 0) 0
      rw [h3] at h4
      simp only at h4
      subst h4
      simp [hzero]
  · simp [Node.compute_payoff]

/-- **C7 witness**: one visited value with visit count `0`, and prior
payoff estimate `[9]` for the empty-children conjunct. -/
theorem chance_node_zero_visits_witness :
    ([CEntry.mk 0 1 1 0 (PyVal.vec [7]) Node.leaf] ≠ ([] : List CEntry)) ∧
    child_payoffs (if false then 1 else 1) [CEntry.mk 0 1 1 0 (PyVal.vec [7]) Node.leaf] =
      some [PyVal.scalar 0] ∧
    total_visits [CEntry.mk 0 1 1 0 (PyVal.vec [7]) Node.leaf] = 0 ∧
    (Node.compute_payoff (.chance (.discrete [1]) none (some (PyVal.vec [9])) none false
        [CEntry.mk 0 1 1 0 (PyVal.vec [7]) Node.leaf]) 1).1 = some (PyVal.vec [0]) ∧
    (Node.compute_payoff (.chance (.discrete [1]) none (some (PyVal.vec [9])) none false
        ([] : List CEntry)) 1).1 = some (PyVal.vec [9]) :=
  ⟨by simp, by rfl, by rfl,
    (chance_node_zero_visits (.discrete [1]) none (some (PyVal.vec [9])) false
      [CEntry.mk 0 1 1 0 (PyVal.vec [7]) Node.leaf] 1 [PyVal.scalar 0]
      (by simp) (by rfl) (by rfl)).1,
    (chance_node_zero_visits (.discrete [1]) none (some (PyVal.vec [9])) false
      [CEntry.mk 0 1 1 0 (PyVal.vec [7]) Node.leaf] 1 [PyVal.scalar 0]
      (by simp) (by rfl) (by rfl)).2⟩

/-- **C9.** Calling `optimize` on a `ChanceNode` whose memoized payoff was
not computed in the current pass (`computed_payoff_estimate is None`) fails
fast at the `assert` precondition, whatever the other fields and
arguments. -/
theorem optimize_asserts_computed_payoff
    (onp : Distribution) (offp : Option Distribution) (pe : Option PyVal)
    (inter : Bool) (cs : List CEntry) (player : ℕ) (discount : ℚ) :
    ChanceNode.optimize (.chance onp offp pe none inter cs) player discount =
      .assertFail := by
  simp [ChanceNode.optimize]

/-- **C8** (code bug, spec §9): `Leaf.compute_payoff` returns the scalar
`0.0`, which is not the per-player zero vector used by `ChanceNode` payoff
aggregation (e.g. `[0, 0]` for two players). -/
theorem leaf_payoff_is_scalar (discount : ℚ) :
    (Node.compute_payoff .leaf discount).1 = some (PyVal.scalar 0) ∧
    PyVal.scalar 0 ≠ PyVal.vec [0, 0] ∧
    (PyVal.scalar 0).index 0 = none := by
  refine ⟨by simp [Node.compute_payoff], by simp, by simp [PyVal.index]⟩

lemma advantage_loop_length (d base : ℚ) (player : ℕ) : ∀ (cs : List CEntry)
    (advs : List ℚ), advantage_loop d base player cs = some advs →
    advs.length = cs.length := by
  intro cs
  induction cs with
  | nil =>
    intro advs h
    simp only [advantage_loop, Option.some.injEq] at h
    subst h
    rfl
  | cons c rest ih =>
    intro advs h
    simp only [advantage_loop] at h
    rcases h1 : (c.child.compute_payoff d).1 with _ | up
    · rw [h1] at h; simp at h
    · rw [h1] at h
      simp only at h
      rcases h2 : (c.direkt_reward.add (PyVal.smul d up)).index player with _ | av
      · rw [h2] at h; simp at h
      · rw [h2] at h
        rcases h3 : advantage_loop d base player rest with _ | l
        · rw [h3] at h; simp at h
        · rw [h3] at h
          simp only [Option.map_some', Option.some.injEq] at h
          subst h
          simp [ih l h3]

lemma sum_eq_zero_iff_of_nonneg (l : List ℚ) (h : ∀ a ∈ l, 0 ≤ a) :
    l.sum = 0 ↔ ∀ a ∈ l, a = 0 := by
  induction l with
  | nil => simp
  | cons x xs ih =>
    have hx : 0 ≤ x := h x (by simp)
    have hxs : ∀ a ∈ xs, 0 ≤ a := fun a ha => h a (by simp [ha])
    have hs : 0 ≤ xs.sum := List.sum_nonneg hxs
    constructor
    · intro h0
      rw [List.sum_cons] at h0
      have hx0 : x = 0 := by linarith [List.sum_nonneg hxs]
      have hsum0 : xs.sum = 0 := by linarith
      intro a ha
      rcases List.mem_cons.mp ha with rfl | ha'
      · exact hx0
      · exact (ih hxs).mp hsum0 a ha'
    · intro hall
      rw [List.sum_cons, hall x (by simp), zero_add]
      exact (ih hxs).mpr (fun a ha => hall a (by simp [ha]))

/-- **C3.** For a `ChanceNode` on which `compute_payoff` has been called
(memoized payoff present) and whose stored baseline `payoff_estimate` is
defined at the current player's index, `optimize` passes to the on-policy
distribution's `optimize` the visited values together with a target policy in
which each value's weight is its negative-clipped advantage divided by the
sum of the clipped advantages, and which is exactly uniform over the visited
values when all clipped advantages are `0`. -/
theorem chance_optimize_target_policy
    (onp : Distribution) (offp : Option Distribution) (cp nv : PyVal)
    (inter : Bool) (cs : List CEntry) (player : ℕ) (discount : ℚ)
    (base : ℚ) (advs : List ℚ)
    (hbase : nv.index player = some base)
    (hadv : advantage_loop (if inter then 1 else discount) base player cs = some advs)
    (hne : cs ≠ []) :
    ChanceNode.optimize (.chance onp offp (some nv) (some cp) inter cs) player discount =
      .call (cs.map CEntry.value)
        (if ∀ a ∈ advs, max a 0 = 0
         then List.replicate advs.length ((1 : ℚ) / advs.length)
         else advs.map (fun a => max a 0 / (advs.map (fun b => max b 0)).sum)) := by
  have hlen := advantage_loop_length (if inter then 1 else discount) base player cs advs hadv
  simp only [ChanceNode.optimize, hbase, hadv]
  cases advs with
  | nil =>
    cases cs with
    | nil => exact absurd rfl hne
    | cons c rest => simp at hlen
  | cons a rest =>
    simp only
    have hnn : ∀ b ∈ (a :: rest).map (fun b => max b 0), 0 ≤ b := by
      intro b hb
      rcases List.mem_map.mp hb with ⟨x, _, rfl⟩
      exact le_max_right x 0
    have hiff : ((a :: rest).map (fun b => max b 0)).sum = 0 ↔
        ∀ x ∈ a :: rest, max x 0 = 0 := by
      rw [sum_eq_zero_iff_of_nonneg _ hnn]
      constructor
      · intro h x hx
        exact h (max x 0) (List.mem_map.mpr ⟨x, hx, rfl⟩)
      · intro h b hb
        rcases List.mem_map.mp hb with ⟨x, hx, rfl⟩
        exact h x hx
    by_cases hz : ((a :: rest).map (fun b => max b 0)).sum = 0
    · rw [if_pos hz, if_pos (hiff.mp hz)]
    · rw [if_neg hz, if_neg (fun h => hz (hiff.mpr h))]
      simp [List.map_map, Function.comp]

/-- **C3 witness**: three visited values with recomputed action values
`[2, 5, 3]` for player `0` against baseline `3`: the target policy handed to
the on-policy distribution is `[0, 1, 0]`. -/
theorem chance_optimize_target_policy_witness :
    ChanceNode.optimize
      (.chance (.discrete [1, 1, 1]) none (some (PyVal.vec [3])) (some (PyVal.vec [3]))
        false
        [CEntry.mk 0 1 1 1 (PyVal.vec [2]) Node.leaf,
         CEntry.mk 1 1 1 1 (PyVal.vec [5]) Node.leaf,
         CEntry.mk 2 1 1 1 (PyVal.vec [3]) Node.leaf]) 0 1 =
      .call [0, 1, 2] [0, 1, 0] := by
  have h := chance_optimize_target_policy (.discrete [1, 1, 1]) none (PyVal.vec [3])
    (PyVal.vec [3]) false
    [CEntry.mk 0 1 1 1 (PyVal.vec [2]) Node.leaf,
     CEntry.mk 1 1 1 1 (PyVal.vec [5]) Node.leaf,
     CEntry.mk 2 1 1 1 (PyVal.vec [3]) Node.leaf] 0 1 3 [-1, 2, 0]
    (by rfl)
    (by norm_num [advantage_loop, Node.compute_payoff, PyVal.add, PyVal.smul,
      PyVal.index, CEntry.child, CEntry.direkt_reward])
    (by simp)
  rw [h]
  norm_num [CEntry.value]

/-- **C4.** When an off-policy distribution is present, a `sample()` call
whose off-policy draw is `(p, v)` — with the on-policy distribution assigning
probability `q` to `v` and `p > 0` — returns importance exactly `q / p`;
when no off-policy distribution is present, `sample()` returns importance
exactly `1.0`. -/
theorem sample_importance_weight
    (onp offd : Distribution) (pe comp : Option PyVal)
    (inter : Bool) (cs : List CEntry) (p v q : ℚ)
    (hq : onp.get_probability v = some q) (hp : 0 < p) :
    ((ChanceNode.sample (.chance onp (some offd) pe comp inter cs) (p, v)).map
        SampleResult.importance = some (q / p)) ∧
    ((ChanceNode.sample (.chance onp none pe comp inter cs) (p, v)).map
        SampleResult.importance = some 1) := by
  constructor
  · simp only [ChanceNode.sample, hq, Option.map_some']
    cases h : find_child cs v <;> simp [h]
  · simp only [ChanceNode.sample, Option.map_some']
    cases h : find_child cs v <;> simp [h]

/-- **C4 witness**: on-policy `[1/4, 3/4]`, off-policy draw `(1/2, 1)`:
importance is `(3/4) / (1/2) = 3/2`; without an off-policy distribution the
importance is `1`. -/
theorem sample_importance_weight_witness :
    Distribution.get_probability (.discrete [1/4, 3/4]) 1 = some (3/4) ∧
    (0 : ℚ) < 1/2 ∧
    ((ChanceNode.sample (.chance (.discrete [1/4, 3/4])
        (some (.discrete [1/2, 1/2])) none none false []) (1/2, 1)).map
      SampleResult.importance = some ((3/4) / (1/2))) ∧
    ((ChanceNode.sample (.chance (.discrete [1/4, 3/4]) none none none false [])
        (1/2, 1)).map SampleResult.importance = some 1) :=
  ⟨by rfl, by norm_num,
    (sample_importance_weight (.discrete [1/4, 3/4]) (.discrete [1/2, 1/2])
      none none false [] (1/2) 1 (3/4) (by rfl) (by norm_num)).1,
    (sample_importance_weight (.discrete [1/4, 3/4]) (.discrete [1/2, 1/2])
      none none false [] (1/2) 1 (3/4) (by rfl) (by norm_num)).2⟩

lemma sum_set_of_getElem (xs : List ℚ) : ∀ (i : ℕ) (a old : ℚ),
    xs[i]? = some old → (xs.set i a).sum = xs.sum - old + a := by
  induction xs with
  | nil => intro i a old h; simp at h
  | cons x rest ih =>
    intro i a old h
    cases i with
    | zero =>
      simp only [List.getElem?_cons_zero, Option.some.injEq] at h
      subst h
      simp only [List.set_cons_zero, List.sum_cons]
      ring
    | succ j =>
      simp only [List.getElem?_cons_succ] at h
      simp only [List.set_cons_succ, List.sum_cons, ih j a old h]
      ring

lemma py_fill_invariant : ∀ (pairs : List (ℤ × ℚ)) (xs : List ℚ),
    (∀ vp ∈ pairs, 0 ≤ vp.1 ∧ vp.1 < (xs.length : ℤ)) →
    (pairs.map Prod.fst).Nodup →
    (∀ vp ∈ pairs, xs[vp.1.toNat]? = some 0) →
    (∀ x ∈ xs, 0 ≤ x) →
    (∀ vp ∈ pairs, 0 ≤ vp.2) →
    ∃ ys, pairs.foldlM (fun l vp => py_set l vp.1 vp.2) xs = some ys ∧
      ys.length = xs.length ∧
      ys.sum = xs.sum + (pairs.map Prod.snd).sum ∧
      (∀ y ∈ ys, 0 ≤ y) := by
  intro pairs
  induction pairs with
  | nil =>
    intro xs _ _ _ hnn _
    exact ⟨xs, rfl, rfl, by simp, hnn⟩
  | cons vp rest ih =>
    intro xs hrange hnd hzero hnn hpnn
    obtain ⟨v, q⟩ := vp
    have hr := hrange (v, q) (by simp)
    have hset : py_set xs v q = some (xs.set v.toNat q) := by
      simp only [py_set]
      rw [if_pos ⟨hr.1, hr.2⟩]
    have hlen2 : (xs.set v.toNat q).length = xs.length := List.length_set xs _ _
    have h0 : xs[v.toNat]? = some 0 := hzero (v, q) (by simp)
    have hsum2 : (xs.set v.toNat q).sum = xs.sum + q := by
      rw [sum_set_of_getElem xs v.toNat q 0 h0]
      ring
    have hnn2 : ∀ y ∈ xs.set v.toNat q, 0 ≤ y := by
      intro y hy
      rcases List.mem_or_eq_of_mem_set hy with hy' | heq
      · exact hnn y hy'
      · rw [heq]
        exact hpnn (v, q) (by simp)
    rw [List.map_cons] at hnd
    have hndc := List.nodup_cons.mp hnd
    have hzero2 : ∀ wp ∈ rest, (xs.set v.toNat q)[wp.1.toNat]? = some 0 := by
      intro wp hwp
      have hvne : v ≠ wp.1 := by
        intro hvw
        exact hndc.1 (List.mem_map.mpr ⟨wp, hwp, hvw.symm⟩)
      have hw := hrange wp (by simp [hwp])
      have hne : v.toNat ≠ wp.1.toNat := by omega
      rw [List.getElem?_set_ne hne]
      exact hzero wp (by simp [hwp])
    have hrange2 : ∀ wp ∈ rest, 0 ≤ wp.1 ∧ wp.1 < ((xs.set v.toNat q).length : ℤ) := by
      intro wp hwp
      rw [hlen2]
      exact hrange wp (by simp [hwp])
    obtain ⟨ys, hfold, hlen3, hsum3, hys⟩ := ih (xs.set v.toNat q) hrange2 hndc.2
      hzero2 hnn2 (fun wp hwp => hpnn wp (by simp [hwp]))
    refine ⟨ys, ?_, by rw [hlen3, hlen2], ?_, hys⟩
    · rw [List.foldlM_cons, hset]
      simpa using hfold
    · rw [hsum3, hsum2]
      simp only [List.map_cons, List.sum_cons]
      ring

/-- A well-formed `optimize(values, probabilities)` call for a distribution
over `n` values: as many probabilities as values, distinct in-range values,
non-negative probabilities summing to `1`. -/
def well_formed_call (n : ℕ) (call : List ℤ × List ℚ) : Prop :=
  call.1.length = call.2.length ∧ call.1.Nodup ∧
  (∀ v ∈ call.1, 0 ≤ v ∧ v < (n : ℤ)) ∧ (∀ p ∈ call.2, 0 ≤ p) ∧ call.2.sum = 1

lemma optimize_preserves_simplex (n : ℕ) (dd : DiscreteDistribution)
    (hn : dd.probs.length = n) (call : List ℤ × List ℚ)
    (hwf : well_formed_call n call) :
    ∃ dd', dd.optimize call.1 call.2 = some dd' ∧ dd'.probs.length = n ∧
      (∀ x ∈ dd'.probs, 0 ≤ x) ∧ dd'.probs.sum = 1 := by
  obtain ⟨hlen, hnd, hrange, hpnn, hsum⟩ := hwf
  have hfst : (call.1.zip call.2).map Prod.fst = call.1 :=
    List.map_fst_zip _ _ (le_of_eq hlen)
  have hsnd : (call.1.zip call.2).map Prod.snd = call.2 :=
    List.map_snd_zip _ _ (ge_of_eq hlen)
  have hzrange : ∀ vp ∈ call.1.zip call.2, 0 ≤ vp.1 ∧
      vp.1 < ((List.replicate dd.probs.length (0 : ℚ)).length : ℤ) := by
    intro vp hvp
    have hv : vp.1 ∈ call.1 := by
      rw [← hfst]; exact List.mem_map.mpr ⟨vp, hvp, rfl⟩
    have := hrange vp.1 hv
    simp only [List.length_replicate, hn]
    exact this
  have hznd : ((call.1.zip call.2).map Prod.fst).Nodup := by rw [hfst]; exact hnd
  have hzzero : ∀ vp ∈ call.1.zip call.2,
      (List.replicate dd.probs.length (0 : ℚ))[vp.1.toNat]? = some 0 := by
    intro vp hvp
    have := hzrange vp hvp
    rw [List.getElem?_replicate, if_pos (by simp at this ⊢; omega)]
  have hzpnn : ∀ vp ∈ call.1.zip call.2, 0 ≤ vp.2 := by
    intro vp hvp
    have hp : vp.2 ∈ call.2 := by
      rw [← hsnd]; exact List.mem_map.mpr ⟨vp, hvp, rfl⟩
    exact hpnn vp.2 hp
  obtain ⟨ys, hfold, hlen3, hsum3, hys⟩ := py_fill_invariant (call.1.zip call.2)
    (List.replicate dd.probs.length (0 : ℚ)) hzrange hznd hzzero (by simp) hzpnn
  refine ⟨⟨ys⟩, ?_, ?_, hys, ?_⟩
  · simp only [DiscreteDistribution.optimize, hfold, Option.map_some']
  · simpa [hn] using hlen3
  · rw [hsum3, hsnd, hsum]
    simp [List.sum_replicate]

/-- **C6 (amended).** Starting from the uniform initialization, after any
sequence of well-formed `optimize` calls (distinct in-range values, as many
non-negative probabilities as values, summing to `1`), `get_parameters`
has non-negative entries and sums to `1`.  (The claim as stated — for
*every* sequence of `optimize` calls — is refuted by
`discrete_optimize_simplex_counterexample`: `optimize` copies the supplied
probabilities without validation.) -/
theorem discrete_distribution_simplex (n : ℕ) (hn : 0 < n)
    (calls : List (List ℤ × List ℚ)) (hw : ∀ c ∈ calls, well_formed_call n c)
    (dd' : DiscreteDistribution)
    (h : (DiscreteDistribution.init n).apply_optimize_calls calls = some dd') :
    (∀ x ∈ dd'.get_parameters, 0 ≤ x) ∧ dd'.get_parameters.sum = 1 := by
  have H : ∀ (cl : List (List ℤ × List ℚ)) (dd : DiscreteDistribution),
      dd.probs.length = n → (∀ x ∈ dd.probs, 0 ≤ x) → dd.probs.sum = 1 →
      (∀ c ∈ cl, well_formed_call n c) →
      ∀ dd2, dd.apply_optimize_calls cl = some dd2 →
        (∀ x ∈ dd2.probs, 0 ≤ x) ∧ dd2.probs.sum = 1 := by
    intro cl
    induction cl with
    | nil =>
      intro dd h1 h2 h3 _ dd2 hfold
      simp only [DiscreteDistribution.apply_optimize_calls, List.foldlM_nil,
        Option.pure_def, Option.some.injEq] at hfold
      subst hfold
      exact ⟨h2, h3⟩
    | cons c rest ih =>
      intro dd h1 h2 h3 hwf dd2 hfold
      simp only [DiscreteDistribution.apply_optimize_calls, List.foldlM_cons] at hfold
      obtain ⟨dd1, hopt, hlen1, hnn1, hsum1⟩ :=
        optimize_preserves_simplex n dd h1 c (hwf c (by simp))
      rw [hopt] at hfold
      simp at hfold
      exact ih dd1 hlen1 hnn1 hsum1 (fun c2 hc => hwf c2 (by simp [hc])) dd2 hfold
  have hnq : (n : ℚ) ≠ 0 := by
    exact_mod_cast Nat.pos_iff_ne_zero.mp hn
  refine H calls (DiscreteDistribution.init n) (by simp [DiscreteDistribution.init]) ?_ ?_
    hw dd' h
  · intro x hx
    rcases List.eq_of_mem_replicate hx with rfl
    positivity
  · simp only [DiscreteDistribution.init, List.sum_replicate, nsmul_eq_mul]
    field_simp

/-- **C6 counterexample**: the claim as frozen fails on the code: from the
uniform `DiscreteDistribution(2)`, the call `optimize([0], [5.0])` stores
`[5, 0]`, whose entries sum to `5`, not `1` — `optimize` performs no
validation of the supplied probabilities. -/
theorem discrete_optimize_simplex_counterexample :
    (DiscreteDistribution.init 2).optimize [0] [5] =
      some (DiscreteDistribution.mk [5, 0]) ∧
    (DiscreteDistribution.mk [5, 0]).get_parameters.sum ≠ 1 := by
  constructor
  · rfl
  · norm_num [DiscreteDistribution.get_parameters]

/-- **C6 witness**: size `2`, one well-formed call `([0, 1], [1/4, 3/4])`:
the resulting parameters `[1/4, 3/4]` are non-negative and sum to `1`. -/
theorem discrete_distribution_simplex_witness :
    0 < 2 ∧
    (∀ c ∈ [([0, 1], [1/4, 3/4])], well_formed_call 2 c) ∧
    (DiscreteDistribution.init 2).apply_optimize_calls [([0, 1], [1/4, 3/4])] =
      some (DiscreteDistribution.mk [1/4, 3/4]) ∧
    ((∀ x ∈ (DiscreteDistribution.mk [1/4, 3/4]).get_parameters, 0 ≤ x) ∧
      (DiscreteDistribution.mk [1/4, 3/4]).get_parameters.sum = 1) := by
  have hw : ∀ c ∈ [(([0, 1] : List ℤ), ([1/4, 3/4] : List ℚ))], well_formed_call 2 c := by
    intro c hc
    simp only [List.mem_singleton] at hc
    subst hc
    refine ⟨rfl, by decide, by decide, ?_, by norm_num⟩
    intro p hp
    simp only [List.mem_cons, List.mem_singleton, List.not_mem_nil, or_false] at hp
    rcases hp with rfl | rfl <;> norm_num
  have happ : (DiscreteDistribution.init 2).apply_optimize_calls
      [([0, 1], [1/4, 3/4])] = some (DiscreteDistribution.mk [1/4, 3/4]) := by rfl
  exact ⟨by norm_num, hw, happ,
    discrete_distribution_simplex 2 (by norm_num) [([0, 1], [1/4, 3/4])] hw
      (DiscreteDistribution.mk [1/4, 3/4]) happ⟩

/-- A member `ChanceNode` whose only child entry points at member `1` of the
same schema. -/
def c5_node_zero : SNode :=
  { on_policy := .discrete [1], off_policy := none, payoff_estimate := none,
    computed_payoff_estimate := none, intermediate := false,
    children := [⟨0, 1, 1, 1, PyVal.vec [0], Ref.member 1⟩] }

/-- A member `ChanceNode` with no children. -/
def c5_node_one : SNode :=
  { on_policy := .discrete [1], off_policy := none, payoff_estimate := none,
    computed_payoff_estimate := none, intermediate := false, children := [] }

/-- **C5** (code bug): on a two-node schema in which node `0` has a child
entry pointing at member node `1`, construction raises `ValueError` inside
`find_leaf_nodes` (the five-element children entries are unpacked into the
three targets `_, _, nn`), instead of marking node `0` intermediate and node
`1` leaf as the claim states; when every member node has an empty children
mapping the loop classifies all of them as leaves and marks none
intermediate. -/
theorem find_leaf_nodes_unpack_bug :
    ActionSchema.find_leaf_nodes [c5_node_zero, c5_node_one] = none ∧
    ActionSchema.init [c5_node_zero, c5_node_one] 0 = none ∧
    ActionSchema.find_leaf_nodes [c5_node_one, c5_node_one] = some [0, 1] :=
  ⟨rfl, rfl, rfl⟩

/-- A `ChanceNode` outside the schema holding a prior payoff estimate `[p]`
(no children, cleared memo): its `compute_payoff` returns `[p]`. -/
def ext_stub (p : ℚ) : Node :=
  .chance (.discrete [1]) none (some (.vec [p])) none false []

/-- The leaf member of the discount-isolation schema: reward `[r1]`, one
child entry pointing outside the schema at `ext_stub p`. -/
def isolation_leaf_node (r1 p : ℚ) : SNode :=
  { on_policy := .discrete [1], off_policy := none, payoff_estimate := none,
    computed_payoff_estimate := none, intermediate := false,
    children := [⟨0, 1, 1, 1, PyVal.vec [r1], Ref.ext (ext_stub p)⟩] }

/-- The intermediate root member of the discount-isolation schema: reward
`[r0]`, one child entry pointing at member `1` (the leaf member). -/
def isolation_root_node (r0 : ℚ) : SNode :=
  { on_policy := .discrete [1], off_policy := none, payoff_estimate := none,
    computed_payoff_estimate := none, intermediate := true,
    children := [⟨0, 1, 1, 1, PyVal.vec [r0], Ref.member 1⟩] }

/-- The spec's discount-isolation `ActionSchema`: one intermediate root
member feeding one leaf member, correctly partitioned (`leafs = [1]`,
root marked intermediate). -/
def isolation_schema (r0 r1 p : ℚ) : ActionSchema :=
  { root_node_index := 0,
    chance_nodes := [isolation_root_node r0, isolation_leaf_node r1 p],
    leafs := [1] }

/-- **C2.** On the discount-isolation schema (one correctly-marked
intermediate root member feeding one leaf member whose child outside the
schema has payoff `[p]`), `ActionSchema.compute_payoff(discount)` first
computes the leaf's payoff with the caller's discount — after phase one the
leaf's memo is `[r1 + discount * p]`, the discount applied exactly once at
the leaf boundary — then recomputes every member with discount `1.0` and
returns the root's payoff `[r0 + (r1 + discount * p)]`: the discount is
never applied again between the intermediate node and the root (for any
recursion budget of at least `2`). -/
theorem action_schema_discount_applied_once (fuel : ℕ) (discount r0 r1 p : ℚ) :
    ((isolation_schema r0 r1 p).compute_payoff (fuel + 2) discount).1 =
      some (PyVal.vec [r0 + (r1 + discount * p)]) ∧
    (compute_payoff_arena (fuel + 2) (isolation_schema r0 r1 p).chance_nodes
        1 discount).1 = some (PyVal.vec [r1 + discount * p]) := by
  constructor <;>
  · simp only [show fuel + 2 = fuel + 1 + 1 from rfl]
    simp only [ActionSchema.compute_payoff, isolation_schema, compute_payoff_arena,
      go_arena, isolation_root_node, isolation_leaf_node, ext_stub,
      Node.compute_payoff, arena_finish, arena_set_children, PyVal.add, PyVal.smul,
      PyVal.divQ, List.get?, List.foldl, List.set, List.length_cons, List.length_nil,
      List.range_succ, List.range_zero]
    norm_num
